import Mathlib

/-!
# Verification of the log-tailing / sliding-window aggregation core

Shallow embedding of the core of `Jinteia-Loot-Analyzer-FREE.py`:

* `parse_log_line` / `LOG_LINE_RE` / `parse_datetime_from_log` (source lines 18-47),
* `LiveMonitorWorker.add_event` (lines 122-126),
* `LiveMonitorWorker.compute_stats_from_window` (lines 128-164),
* the read/report iteration of `LiveMonitorWorker.run` (lines 166-196).

Modelling conventions:

* Python `datetime` values are embedded as a `DateTime` record of calendar
  fields; comparison and subtraction of (valid) datetimes is mediated by
  `DateTime.toSec`, the proleptic-Gregorian second count that Python's
  `datetime` arithmetic computes with (toordinal * 86400 + seconds of day).
* Python float arithmetic (`elapsed / 3600.0`, `round(x)`) is modelled
  exactly over `ℚ` with Python's banker rounding (`pyRound`); every
  concrete value appearing in the claims is exactly representable, so the
  rational and the float computation agree on them.
* The regex `LOG_LINE_RE` is `re.search`ed; the matcher below implements
  exactly that pattern (leftmost match position, greedy `\d+`, lazy
  `(.+?)` stopped at the first following `'.'`, `.` not matching `'\n'`).
  `\d` is modelled as the ASCII digits `0`-`9`; all inputs relevant to the
  claims are ASCII.
* Code that can raise an exception that escapes the function is embedded
  in `Except Unit`; `.error ()` marks an escaped Python exception.
-/

/-- Calendar date-time at second resolution, as carried by Python
`datetime.datetime` (naive, no timezone). -/
structure DateTime where
  year : Nat
  month : Nat
  day : Nat
  hour : Nat
  minute : Nat
  second : Nat
deriving DecidableEq, Repr

/-- Gregorian leap-year rule (Python `calendar.isleap`). -/
def isLeap (y : Nat) : Bool :=
  (y % 4 == 0 && y % 100 != 0) || y % 400 == 0

/-- Length of a month, as validated by the `datetime` constructor. -/
def daysInMonth (y m : Nat) : Nat :=
  if m = 2 then (if isLeap y then 29 else 28)
  else if m = 4 ∨ m = 6 ∨ m = 9 ∨ m = 11 then 30
  else 31

/-- Days in the proleptic Gregorian calendar strictly before month `m` of
year `y` (months numbered from 1). -/
def daysBeforeMonth (y : Nat) : Nat → Nat
  | 0 => 0
  | 1 => 0
  | m + 2 => daysBeforeMonth y (m + 1) + daysInMonth y (m + 1)

/-- Seconds on the linear timeline Python's `datetime` arithmetic uses
(`toordinal() * 86400` plus the seconds of the day).  Comparison and
subtraction of valid datetimes in the source correspond exactly to
comparison and subtraction of `toSec` values. -/
def DateTime.toSec (d : DateTime) : Int :=
  ((365 * (d.year - 1) + (d.year - 1) / 4 - (d.year - 1) / 100 + (d.year - 1) / 400
      + daysBeforeMonth d.year d.month + (d.day - 1)) * 86400
    + d.hour * 3600 + d.minute * 60 + d.second : Nat)

/-- `LootEvent` dataclass (source lines 23-31). -/
structure LootEvent where
  ts : DateTime
  quantity : Nat
  item : String
deriving DecidableEq, Repr

/-- `LootEvent.is_yang` property (source lines 29-31). -/
def LootEvent.is_yang (e : LootEvent) : Bool :=
  e.item == "Yang"

/-!
## The sliding window (`LiveMonitorWorker.add_event`, lines 122-126)

The deque `self.window` is embedded as a `List LootEvent` (front = head).
-/

/-- The `while self.window and self.window[0].ts < cutoff:
self.window.popleft()` loop of `add_event` (lines 125-126). -/
def evictFront (cutoff : Int) : List LootEvent → List LootEvent
  | [] => []
  | e :: rest => if e.ts.toSec < cutoff then evictFront cutoff rest else e :: rest

/-- `LiveMonitorWorker.add_event` (lines 122-126): append at the tail, then
evict from the front while the head is older than
`ev.ts - timedelta(minutes=window_minutes)`. -/
def add_event (window_minutes : Int) (window : List LootEvent) (ev : LootEvent) :
    List LootEvent :=
  evictFront (ev.ts.toSec - window_minutes * 60) (window ++ [ev])

/-- Feeding a whole sequence of events through `add_event`, starting from the
empty deque created in `__init__` (line 120). -/
def appendAll (window_minutes : Int) (evs : List LootEvent) : List LootEvent :=
  evs.foldl (add_event window_minutes) []

theorem evictFront_eq_dropWhile (cutoff : Int) (l : List LootEvent) :
    evictFront cutoff l = l.dropWhile (fun e => decide (e.ts.toSec < cutoff)) := by
  induction l with
  | nil => rfl
  | cons e rest ih =>
    by_cases h : e.ts.toSec < cutoff <;> simp [evictFront, List.dropWhile_cons, h, ih]

theorem dropWhile_dropWhile_of_imp {α : Type} (p q : α → Bool)
    (hpq : ∀ a, p a = true → q a = true) (l : List α) :
    (l.dropWhile p).dropWhile q = l.dropWhile q := by
  induction l with
  | nil => rfl
  | cons a rest ih =>
    by_cases hp : p a
    · have hq := hpq a hp
      simp [List.dropWhile_cons, hp, hq, ih]
    · simp [List.dropWhile_cons, hp]

theorem dropWhile_append_last {α : Type} (p : α → Bool) (l : List α) (e : α)
    (he : p e = false) :
    (l ++ [e]).dropWhile p = l.dropWhile p ++ [e] := by
  induction l with
  | nil => simp [List.dropWhile_cons, he]
  | cons a rest ih =>
    by_cases hp : p a <;> simp [List.dropWhile_cons, hp, ih]

theorem mem_dropWhile_lt_ge (c : Int) (l : List LootEvent)
    (hs : l.Pairwise (fun a b => a.ts.toSec ≤ b.ts.toSec)) :
    ∀ x ∈ l.dropWhile (fun e => decide (e.ts.toSec < c)), c ≤ x.ts.toSec := by
  induction l with
  | nil => simp
  | cons a rest ih =>
    by_cases hp : a.ts.toSec < c
    · simpa [List.dropWhile_cons, hp] using ih hs.of_cons
    · intro x hx
      have hstep : (a :: rest).dropWhile (fun e => decide (e.ts.toSec < c)) = a :: rest := by
        simp [List.dropWhile_cons, hp]
      rw [hstep] at hx
      rcases List.mem_cons.mp hx with h | h
      · subst h
        omega
      · have := (List.pairwise_cons.mp hs).1 x h
        omega

/-- The cumulative effect on the window of feeding a timestamp-sorted batch
of events through `add_event`: exactly the events older than the final
cutoff are gone, and they are removed from the front. -/
theorem appendAll_concat_eq_dropWhile (w : Int) (hw : 0 ≤ w) :
    ∀ (evs : List LootEvent) (e : LootEvent),
      (evs ++ [e]).Pairwise (fun a b => a.ts.toSec ≤ b.ts.toSec) →
      appendAll w (evs ++ [e]) =
        (evs ++ [e]).dropWhile (fun x => decide (x.ts.toSec < e.ts.toSec - w * 60)) := by
  intro evs
  induction evs using List.reverseRecOn with
  | nil =>
    intro e _
    have he : (decide (e.ts.toSec < e.ts.toSec - w * 60)) = false := by
      simp only [decide_eq_false_iff_not]
      omega
    simp [appendAll, add_event, evictFront_eq_dropWhile, List.dropWhile_cons, he]
  | append_singleton evs eprev ih =>
    intro e hsorted
    have hsorted' : (evs ++ [eprev]).Pairwise (fun a b => a.ts.toSec ≤ b.ts.toSec) :=
      (List.pairwise_append.mp hsorted).1
    have hprev_le : eprev.ts.toSec ≤ e.ts.toSec := by
      have := (List.pairwise_append.mp hsorted).2.2 eprev (by simp) e (by simp)
      exact this
    have hfold : appendAll w ((evs ++ [eprev]) ++ [e]) =
        add_event w (appendAll w (evs ++ [eprev])) e := by
      simp [appendAll, List.foldl_append]
    rw [hfold, ih eprev hsorted', add_event, evictFront_eq_dropWhile]
    have he : (decide (e.ts.toSec < e.ts.toSec - w * 60)) = false := by
      simp only [decide_eq_false_iff_not]
      omega
    rw [dropWhile_append_last (fun x => decide (x.ts.toSec < e.ts.toSec - w * 60))
        ((evs ++ [eprev]).dropWhile (fun x => decide (x.ts.toSec < eprev.ts.toSec - w * 60)))
        e he,
      dropWhile_dropWhile_of_imp (fun x => decide (x.ts.toSec < eprev.ts.toSec - w * 60))
        (fun x => decide (x.ts.toSec < e.ts.toSec - w * 60))
        (fun a ha => by
          simp only [decide_eq_true_eq] at ha ⊢
          omega)
        (evs ++ [eprev]),
      ← dropWhile_append_last (fun x => decide (x.ts.toSec < e.ts.toSec - w * 60))
        (evs ++ [eprev]) e he]

/-- C1: Window invariant with exact eviction.  After any sequence of `append`
calls with non-decreasing timestamps (starting from the empty window built in
`__init__`), the window is exactly the input sequence with the events older
than `latest.ts - windowDuration` removed from the front: every retained
event satisfies the bound, and every evicted event (the removed front
segment) violates it.  The per-append behaviour — insert at the tail, then
evict from the head while `head.ts < newEvent.ts - windowDuration` — is the
definition `add_event = evictFront ∘ (· ++ [ev])` embedded from source lines
122-126, with `evictFront_eq_dropWhile` showing the loop is an exact
`dropWhile`. -/
theorem window_invariant_exact (w : Int) (hw : 0 ≤ w) (evs : List LootEvent)
    (hne : evs ≠ [])
    (hsorted : evs.Pairwise (fun a b => a.ts.toSec ≤ b.ts.toSec)) :
    appendAll w evs =
      evs.dropWhile (fun x => decide (x.ts.toSec < (evs.getLast hne).ts.toSec - w * 60)) ∧
    (∀ x ∈ appendAll w evs, (evs.getLast hne).ts.toSec - w * 60 ≤ x.ts.toSec) ∧
    (∀ x ∈ evs.takeWhile
        (fun x => decide (x.ts.toSec < (evs.getLast hne).ts.toSec - w * 60)),
      x.ts.toSec < (evs.getLast hne).ts.toSec - w * 60) := by
  have hdec : evs.dropLast ++ [evs.getLast hne] = evs :=
    List.dropLast_concat_getLast hne
  have h1 : appendAll w evs =
      evs.dropWhile (fun x => decide (x.ts.toSec < (evs.getLast hne).ts.toSec - w * 60)) := by
    have key := appendAll_concat_eq_dropWhile w hw evs.dropLast (evs.getLast hne)
      (by rw [hdec]; exact hsorted)
    rw [hdec] at key
    exact key
  refine ⟨h1, ?_, ?_⟩
  · intro x hx
    rw [h1] at hx
    exact mem_dropWhile_lt_ge _ evs hsorted x hx
  · intro x hx
    have := List.mem_takeWhile_imp hx
    simpa using this

def c1Event1 : LootEvent := { ts := ⟨2025, 11, 24, 10, 0, 0⟩, quantity := 7, item := "Iron Ore" }

def c1Event2 : LootEvent := { ts := ⟨2025, 11, 24, 10, 30, 0⟩, quantity := 2, item := "Yang" }

/-- Witness for `window_invariant_exact` on a concrete sorted two-event
sequence with a 5-minute window (the first event is evicted). -/
theorem window_invariant_exact_witness :
    ((0 : Int) ≤ 5 ∧ ([c1Event1, c1Event2] : List LootEvent) ≠ [] ∧
      ([c1Event1, c1Event2] : List LootEvent).Pairwise
        (fun a b => a.ts.toSec ≤ b.ts.toSec)) ∧
    (appendAll 5 [c1Event1, c1Event2] =
      [c1Event1, c1Event2].dropWhile
        (fun x => decide (x.ts.toSec <
          ([c1Event1, c1Event2].getLast (by decide)).ts.toSec - 5 * 60)) ∧
    (∀ x ∈ appendAll 5 [c1Event1, c1Event2],
      ([c1Event1, c1Event2].getLast (by decide)).ts.toSec - 5 * 60 ≤ x.ts.toSec) ∧
    (∀ x ∈ [c1Event1, c1Event2].takeWhile
        (fun x => decide (x.ts.toSec <
          ([c1Event1, c1Event2].getLast (by decide)).ts.toSec - 5 * 60)),
      x.ts.toSec < ([c1Event1, c1Event2].getLast (by decide)).ts.toSec - 5 * 60)) :=
  ⟨⟨by decide, by decide, by decide⟩,
    window_invariant_exact 5 (by decide) [c1Event1, c1Event2] (by decide) (by decide)⟩

/-- C10: `add_event` never leaves the window empty.  For any window state and
any event, with a non-negative `window_minutes`, the just-appended event
survives its own eviction pass (the cutoff `ev.ts - windowDuration` never
excludes `ev` itself), so the window is non-empty and ends with `ev`. -/
theorem add_event_nonempty_last (w : Int) (hw : 0 ≤ w)
    (window : List LootEvent) (ev : LootEvent) :
    add_event w window ev ≠ [] ∧
    (add_event w window ev).getLast? = some ev ∧
    decide (ev.ts.toSec < ev.ts.toSec - w * 60) = false := by
  have he : (decide (ev.ts.toSec < ev.ts.toSec - w * 60)) = false := by
    simp only [decide_eq_false_iff_not]
    omega
  have h : add_event w window ev =
      window.dropWhile (fun x => decide (x.ts.toSec < ev.ts.toSec - w * 60)) ++ [ev] := by
    rw [add_event, evictFront_eq_dropWhile,
      dropWhile_append_last (fun x => decide (x.ts.toSec < ev.ts.toSec - w * 60))
        window ev he]
  refine ⟨?_, ?_, he⟩
  · rw [h]
    simp
  · rw [h]
    simp [List.getLast?_concat]

/-- Witness for `add_event_nonempty_last` with a zero-duration window and an
event appended to a non-empty window holding a strictly newer head. -/
theorem add_event_nonempty_last_witness :
    ((0 : Int) ≤ 0) ∧
    (add_event 0 [c1Event2] c1Event1 ≠ [] ∧
     (add_event 0 [c1Event2] c1Event1).getLast? = some c1Event1 ∧
     decide (c1Event1.ts.toSec < c1Event1.ts.toSec - 0 * 60) = false) :=
  ⟨by decide, add_event_nonempty_last 0 (by decide) [c1Event2] c1Event1⟩

/-!
## The line parser (`LOG_LINE_RE` / `parse_log_line`, source lines 18-47)

`LOG_LINE_RE.search` is embedded as a leftmost-position matcher for the
pattern

  `\[(\d{2}/\d{2}/\d{2})\] \[(\d{2}:\d{2}:\d{2})\]: You receive (\d+) (.+?)\.`

The two date/time capture groups are guaranteed by the pattern to be three
(resp. three) two-digit numbers, so the matcher captures the six numeric
fields directly; `strptime` then only performs range validation on them.
-/

/-- Python `\d` (ASCII range; see the module comment). -/
def isDigitCh (c : Char) : Bool :=
  '0' ≤ c && c ≤ '9'

/-- Numeric value of a run of digit characters, i.e. Python `int(qty_str)`
(line 46). -/
def digitsToNat (l : List Char) : Nat :=
  l.foldl (fun acc c => acc * 10 + (c.toNat - 48)) 0

/-- Consume an exact literal (a fixed fragment of the regex pattern). -/
def expectLit (lit : List Char) (cs : List Char) : Option (List Char) :=
  match lit, cs with
  | [], rest => some rest
  | _ :: _, [] => none
  | l :: ls, c :: rest => if c = l then expectLit ls rest else none

/-- Consume `\d{2}` and return its numeric value. -/
def digit2 (cs : List Char) : Option (Nat × List Char) :=
  match cs with
  | a :: b :: rest =>
    if isDigitCh a && isDigitCh b then
      some ((a.toNat - 48) * 10 + (b.toNat - 48), rest)
    else none
  | _ => none

/-- Maximal run of digits at the front (greedy `\d+`; the following literal
is a space, which no backtracked shorter run can satisfy, so the greedy
run is exact). -/
def takeDigitsRun : List Char → List Char × List Char
  | [] => ([], [])
  | c :: cs =>
    if isDigitCh c then
      let p := takeDigitsRun cs
      (c :: p.1, p.2)
    else ([], c :: cs)

/-- Scan up to the first `'.'`, failing on `'\n'` (which `.` does not match)
or end of input; returns the consumed part and the rest after the dot. -/
def scanToDot : List Char → Option (List Char × List Char)
  | [] => none
  | c :: cs =>
    if c = '.' then some ([], cs)
    else if c = '\n' then none
    else (scanToDot cs).map (fun p => (c :: p.1, p.2))

/-- The lazy `(.+?)\.` tail of the pattern: at least one non-newline
character, extended minimally until the first following `'.'`. -/
def itemScan : List Char → Option (List Char × List Char)
  | [] => none
  | c :: cs =>
    if c = '\n' then none
    else (scanToDot cs).map (fun p => (c :: p.1, p.2))

/-- The raw capture of one successful `LOG_LINE_RE` match: the six numeric
date/time fields, the quantity digits, and the item text. -/
structure RawMatch where
  dd : Nat
  mm : Nat
  yy : Nat
  hh : Nat
  mi : Nat
  ss : Nat
  qty : List Char
  itemChars : List Char
deriving DecidableEq, Repr

/-- The fixed prefix of the pattern through `You receive ` (everything
before the `(\d+)` group).  The spec grammar prescribes this exact shape
for the whole prefix of the line, so the regex-side and the grammar-side
definitions share it. -/
def matchHeader (cs : List Char) : Option (Nat × Nat × Nat × Nat × Nat × Nat × List Char) := do
  let r ← expectLit ['['] cs
  let (dd, r) ← digit2 r
  let r ← expectLit ['/'] r
  let (mm, r) ← digit2 r
  let r ← expectLit ['/'] r
  let (yy, r) ← digit2 r
  let r ← expectLit [']', ' ', '['] r
  let (hh, r) ← digit2 r
  let r ← expectLit [':'] r
  let (mi, r) ← digit2 r
  let r ← expectLit [':'] r
  let (ss, r) ← digit2 r
  let r ← expectLit [']', ':', ' ', 'Y', 'o', 'u', ' ', 'r', 'e', 'c', 'e', 'i', 'v', 'e', ' '] r
  pure (dd, mm, yy, hh, mi, ss, r)

/-- One attempt of `LOG_LINE_RE` at a fixed start position: the fixed
header, then the greedy `(\d+)`, the literal space, and the lazy
`(.+?)\.`. -/
def matchAt (cs : List Char) : Option RawMatch := do
  let (dd, mm, yy, hh, mi, ss, r) ← matchHeader cs
  let qr := takeDigitsRun r
  match qr.1, qr.2 with
  | [], _ => none
  | q0 :: qrest, ' ' :: r2 =>
    let p ← itemScan r2
    pure ⟨dd, mm, yy, hh, mi, ss, q0 :: qrest, p.1⟩
  | _ :: _, _ => none

/-- `re.search`: try the pattern at every position, leftmost first. -/
def reSearch : List Char → Option RawMatch
  | [] => none
  | c :: rest =>
    match matchAt (c :: rest) with
    | some m => some m
    | none => reSearch rest

/-- `parse_datetime_from_log` (source lines 34-36):
`datetime.strptime(f"{date_str} {time_str}", "%d/%m/%y %H:%M:%S")` applied
to the two-digit capture groups.  `strptime` accepts exactly day 1-31
(further bounded by the month length when the `datetime` is constructed),
month 1-12, hour 0-23, minute 0-59, second 0-59, and maps `%y` below 69 to
20yy and otherwise to 19yy.  `none` embeds the `ValueError` that `strptime`
(or the `datetime` constructor) raises. -/
def parse_datetime_from_log (dd mm yy hh mi ss : Nat) : Option DateTime :=
  let y := if yy ≤ 68 then 2000 + yy else 1900 + yy
  if 1 ≤ mm ∧ mm ≤ 12 ∧ 1 ≤ dd ∧ dd ≤ daysInMonth y mm ∧ hh ≤ 23 ∧ mi ≤ 59 ∧ ss ≤ 59
  then some ⟨y, mm, dd, hh, mi, ss⟩
  else none

/-- `parse_log_line` (source lines 39-47).  `.ok none` is the `return None`
on a failed search; `.error ()` is the `ValueError` raised by
`parse_datetime_from_log` on a line the regex matches but whose date/time
fields are out of range — the source has no handler for it, so it escapes
the function. -/
def parse_log_line (line : String) : Except Unit (Option LootEvent) :=
  match reSearch line.data with
  | none => .ok none
  | some m =>
    match parse_datetime_from_log m.dd m.mm m.yy m.hh m.mi m.ss with
    | none => .error ()
    | some ts => .ok (some ⟨ts, digitsToNat m.qty, String.mk m.itemChars⟩)

/-- Spec-side grammar, for the refinement comparison of claim C2 (spec
section 4.1): the **whole line** has the exact form
`[DD/MM/YY] [HH:MM:SS]: You receive <quantity> <itemName>.` with
`<quantity>` one or more digits and `<itemName>` the remaining text up to a
trailing period (the final character of the line).  Defined from the spec's
words, not from the regex. -/
def grammarParse (line : String) : Option RawMatch := do
  let (dd, mm, yy, hh, mi, ss, r) ← matchHeader line.data
  let qr := takeDigitsRun r
  match qr.1, qr.2 with
  | [], _ => none
  | q0 :: qrest, ' ' :: r2 =>
    if r2.getLast? = some '.' then
      match r2.dropLast with
      | [] => none
      | i0 :: irest => pure ⟨dd, mm, yy, hh, mi, ss, q0 :: qrest, i0 :: irest⟩
    else none
  | _ :: _, _ => none

/-- C3 (refuting the totality claim): `parse_log_line` is **not** total.  On
a line that `LOG_LINE_RE` matches but whose date fields are out of range,
`datetime.strptime` raises `ValueError` and nothing in `parse_log_line` (or
in the `run` loop that calls it) catches it: the exception escapes.  Day 32
of month 01 is such an input. -/
theorem parse_log_line_raises_on_day_32 :
    parse_log_line "[32/01/25] [00:00:00]: You receive 5 Gold." = .error () ∧
    parse_log_line "[24/11/25] [00:29:29]: You receive 5 Gold." =
      .ok (some { ts := ⟨2025, 11, 24, 0, 29, 29⟩, quantity := 5, item := "Gold" }) := by
  exact ⟨rfl, rfl⟩

/-- C2 counterexample: the claimed equivalence "returns a LootEvent exactly
for grammar-matching lines, with exactly the grammar's fields" is false in
both directions.  (a) A line that does not match the grammar (junk before
the `[`) still yields an event, because the source uses `re.search`, not a
full-line match.  (b) A line that does match the grammar with
`itemName = "A.B"` yields the event with item `"A"`: the lazy `(.+?)\.`
stops at the first period, not the trailing one. -/
theorem parse_round_trip_counterexample :
    (grammarParse "xx[24/11/25] [00:29:29]: You receive 5 Gold." = none ∧
      parse_log_line "xx[24/11/25] [00:29:29]: You receive 5 Gold." =
        .ok (some { ts := ⟨2025, 11, 24, 0, 29, 29⟩, quantity := 5, item := "Gold" })) ∧
    (grammarParse "[24/11/25] [00:29:29]: You receive 5 A.B." =
        some ⟨24, 11, 25, 0, 29, 29, ['5'], ['A', '.', 'B']⟩ ∧
      parse_log_line "[24/11/25] [00:29:29]: You receive 5 A.B." =
        .ok (some { ts := ⟨2025, 11, 24, 0, 29, 29⟩, quantity := 5, item := "A" })) := by
  exact ⟨⟨rfl, rfl⟩, ⟨rfl, rfl⟩⟩

/-- The two-digit rendering `DD` of a value below 100 (every two-digit
field of the grammar is `pad2` of its value). -/
def digitCh (d : Nat) : Char :=
  Char.ofNat (48 + d)

def pad2 (n : Nat) : List Char :=
  [digitCh (n / 10), digitCh (n % 10)]

theorem digitCh_toNat (d : Nat) (h : d ≤ 9) : (digitCh d).toNat = 48 + d := by
  interval_cases d <;> decide

theorem digitCh_isDigit (d : Nat) (h : d ≤ 9) : isDigitCh (digitCh d) = true := by
  interval_cases d <;> decide

theorem digit2_pad2 (n : Nat) (h : n < 100) (r : List Char) :
    digit2 (pad2 n ++ r) = some (n, r) := by
  have h1 : isDigitCh (digitCh (n / 10)) = true := digitCh_isDigit _ (by omega)
  have h2 : isDigitCh (digitCh (n % 10)) = true := digitCh_isDigit _ (by omega)
  have h3 : (digitCh (n / 10)).toNat = 48 + n / 10 := digitCh_toNat _ (by omega)
  have h4 : (digitCh (n % 10)).toNat = 48 + n % 10 := digitCh_toNat _ (by omega)
  simp [pad2, digit2, h1, h2, h3, h4]
  omega

/-- The character-list shape the spec grammar prescribes for a full line
with date fields `dd/mm/yy`, time fields `hh:mi:ss`, quantity digits `q`
and item text `i`. -/
def logLineChars (dd mm yy hh mi ss : Nat) (q i : List Char) : List Char :=
  '[' :: pad2 dd ++ '/' :: pad2 mm ++ '/' :: pad2 yy ++ ']' :: ' ' :: '[' ::
    pad2 hh ++ ':' :: pad2 mi ++ ':' :: pad2 ss ++ ']' :: ':' :: ' ' ::
    'Y' :: 'o' :: 'u' :: ' ' :: 'r' :: 'e' :: 'c' :: 'e' :: 'i' :: 'v' :: 'e' :: ' ' ::
    q ++ ' ' :: i ++ ['.']

set_option maxHeartbeats 2000000 in
theorem matchHeader_logLineChars (dd mm yy hh mi ss : Nat)
    (hdd : dd < 100) (hmm2 : mm < 100) (hyy : yy < 100)
    (hhh : hh < 100) (hmi : mi < 100) (hss : ss < 100) (q i : List Char) :
    matchHeader (logLineChars dd mm yy hh mi ss q i) =
      some (dd, mm, yy, hh, mi, ss, q ++ ' ' :: i ++ ['.']) := by
  simp [logLineChars, matchHeader, expectLit,
    digit2_pad2 dd hdd, digit2_pad2 mm hmm2, digit2_pad2 yy hyy,
    digit2_pad2 hh hhh, digit2_pad2 mi hmi, digit2_pad2 ss hss]

theorem takeDigitsRun_append (q : List Char) (hq : ∀ c ∈ q, isDigitCh c = true)
    (c0 : Char) (h0 : isDigitCh c0 = false) (r : List Char) :
    takeDigitsRun (q ++ c0 :: r) = (q, c0 :: r) := by
  induction q with
  | nil => simp [takeDigitsRun, h0]
  | cons c cs ih =>
    have hc : isDigitCh c = true := hq c (by simp)
    have ih2 := ih (fun x hx => hq x (by simp [hx]))
    simp [takeDigitsRun, hc, ih2]

theorem scanToDot_append (t : List Char) (ht : '.' ∉ t) (hn : '\n' ∉ t)
    (r : List Char) :
    scanToDot (t ++ '.' :: r) = some (t, r) := by
  induction t with
  | nil => simp [scanToDot]
  | cons c cs ih =>
    simp only [List.mem_cons, not_or] at ht hn
    have h1 : ¬(c = '.') := fun h => ht.1 h.symm
    have h2 : ¬(c = '\n') := fun h => hn.1 h.symm
    simp [scanToDot, h1, h2, ih ht.2 hn.2]

theorem itemScan_append (i : List Char) (hi : i ≠ []) (hdot : '.' ∉ i)
    (hnl : '\n' ∉ i) (r : List Char) :
    itemScan (i ++ '.' :: r) = some (i, r) := by
  match i, hi with
  | i0 :: irest, _ =>
    simp only [List.mem_cons, not_or] at hdot hnl
    have h2 : ¬(i0 = '\n') := fun h => hnl.1 h.symm
    simp [itemScan, h2, scanToDot_append irest hdot.2 hnl.2]

set_option maxHeartbeats 1000000 in
theorem matchAt_logLineChars (dd mm yy hh mi ss : Nat)
    (hdd : dd < 100) (hmm2 : mm < 100) (hyy : yy < 100)
    (hhh : hh < 100) (hmi : mi < 100) (hss : ss < 100) (q i : List Char)
    (hq : q ≠ []) (hqd : ∀ c ∈ q, isDigitCh c = true)
    (hi : i ≠ []) (hdot : '.' ∉ i) (hnl : '\n' ∉ i) :
    matchAt (logLineChars dd mm yy hh mi ss q i) =
      some ⟨dd, mm, yy, hh, mi, ss, q, i⟩ := by
  match q, hq with
  | q0 :: qrest, _ =>
    have hdig := takeDigitsRun_append (q0 :: qrest) hqd ' ' (by decide) (i ++ ['.'])
    simp only [List.cons_append] at hdig
    have hitem := itemScan_append i hi hdot hnl []
    simp [matchAt,
      matchHeader_logLineChars dd mm yy hh mi ss hdd hmm2 hyy hhh hmi hss
        (q0 :: qrest) i,
      hdig, hitem]

theorem reSearch_eq_of_matchAt {cs : List Char} {m : RawMatch}
    (h : matchAt cs = some m) : reSearch cs = some m := by
  cases cs with
  | nil => exact Option.noConfusion (h : (none : Option RawMatch) = some m)
  | cons c rest => simp [reSearch, h]

/-- C2, amended: on every line that exactly matches the grammar **and**
whose item text contains no period (and no newline) **and** whose date/time
fields are in `strptime` range, the spec-side `grammarParse` and the
source-side `parse_log_line` agree, and the returned `LootEvent` carries
exactly the grammar's fields: the `strptime` combination of the date and
time, the decimal value of the quantity digits, and the item text.
(The unamended claim fails in both directions; see
`parse_round_trip_counterexample`.) -/
theorem parse_round_trip_amended (dd mm yy hh mi ss : Nat) (q i : List Char)
    (d : DateTime)
    (hdd : dd < 100) (hmm2 : mm < 100) (hyy : yy < 100)
    (hhh : hh < 100) (hmi : mi < 100) (hss : ss < 100)
    (hq : q ≠ []) (hqd : ∀ c ∈ q, isDigitCh c = true)
    (hi : i ≠ []) (hdot : '.' ∉ i) (hnl : '\n' ∉ i)
    (hvalid : parse_datetime_from_log dd mm yy hh mi ss = some d) :
    grammarParse (String.mk (logLineChars dd mm yy hh mi ss q i)) =
      some ⟨dd, mm, yy, hh, mi, ss, q, i⟩ ∧
    parse_log_line (String.mk (logLineChars dd mm yy hh mi ss q i)) =
      .ok (some ⟨d, digitsToNat q, String.mk i⟩) := by
  have hm := matchAt_logLineChars dd mm yy hh mi ss hdd hmm2 hyy hhh hmi hss
    q i hq hqd hi hdot hnl
  constructor
  · match q, hq with
    | q0 :: qrest, _ =>
      match i, hi with
      | i0 :: irest, _ =>
        have hdig := takeDigitsRun_append (q0 :: qrest) hqd ' ' (by decide)
          ((i0 :: irest) ++ ['.'])
        simp only [List.cons_append] at hdig
        have hlast : (i0 :: (irest ++ ['.'])).getLast? = some '.' := by
          rw [← List.cons_append]
          exact List.getLast?_concat _
        have hdrop : (i0 :: (irest ++ ['.'])).dropLast = i0 :: irest := by
          rw [← List.cons_append]
          exact List.dropLast_concat
        simp [grammarParse,
          matchHeader_logLineChars dd mm yy hh mi ss hdd hmm2 hyy hhh hmi hss
            (q0 :: qrest) (i0 :: irest),
          hdig, hlast, hdrop]
  · have hre := reSearch_eq_of_matchAt hm
    simp [parse_log_line, hre, hvalid]

/-- Witness for `parse_round_trip_amended` at the concrete line
`[24/11/25] [10:00:00]: You receive 5 Gold.`. -/
theorem parse_round_trip_amended_witness :
    (parse_datetime_from_log 24 11 25 10 0 0 = some ⟨2025, 11, 24, 10, 0, 0⟩ ∧
      (['5'] : List Char) ≠ [] ∧ (∀ c ∈ (['5'] : List Char), isDigitCh c = true) ∧
      (['G', 'o', 'l', 'd'] : List Char) ≠ [] ∧
      '.' ∉ (['G', 'o', 'l', 'd'] : List Char) ∧
      '\n' ∉ (['G', 'o', 'l', 'd'] : List Char)) ∧
    (grammarParse (String.mk (logLineChars 24 11 25 10 0 0 ['5'] ['G', 'o', 'l', 'd'])) =
      some ⟨24, 11, 25, 10, 0, 0, ['5'], ['G', 'o', 'l', 'd']⟩ ∧
    parse_log_line (String.mk (logLineChars 24 11 25 10 0 0 ['5'] ['G', 'o', 'l', 'd'])) =
      .ok (some ⟨⟨2025, 11, 24, 10, 0, 0⟩, digitsToNat ['5'],
        String.mk ['G', 'o', 'l', 'd']⟩)) :=
  ⟨⟨by decide, by decide, by decide, by decide, by decide, by decide⟩,
    parse_round_trip_amended 24 11 25 10 0 0 ['5'] ['G', 'o', 'l', 'd']
      ⟨2025, 11, 24, 10, 0, 0⟩
      (by decide) (by decide) (by decide) (by decide) (by decide) (by decide)
      (by decide) (by decide) (by decide) (by decide) (by decide) (by decide)⟩

/-!
## Snapshot computation (`compute_stats_from_window`, source lines 128-164)

Python floats are modelled over `ℚ` (see the module comment); `round` is
Python's round-half-to-even on those exact values.
-/

/-- Python `round(x)` (banker's rounding, half to even) on an exact
rational. -/
def pyRound (x : ℚ) : Int :=
  let f := x.floor
  let r := x - f
  if r < 1 / 2 then f
  else if 1 / 2 < r then f + 1
  else if f % 2 = 0 then f else f + 1

/-- `items_qty[name] += q` on the insertion-ordered mapping
(`defaultdict(int)` over a Python 3.7+ dict, lines 134-137): an existing
key keeps its position, a new key is appended. -/
def bumpQty : List (String × Nat) → String → Nat → List (String × Nat)
  | [], name, q => [(name, q)]
  | (n, q0) :: rest, name, q =>
    if n = name then (n, q0 + q) :: rest
    else (n, q0) :: bumpQty rest name q

/-- The `items_qty` accumulation loop (lines 134-137): per-item quantity
totals over the non-currency events, keyed by item name, in first-seen
order. -/
def items_qty (evs : List LootEvent) : List (String × Nat) :=
  evs.foldl (fun acc ev => if ev.is_yang then acc else bumpQty acc ev.item ev.quantity) []

/-- The `stats` dict built by `compute_stats_from_window`
(lines 154-163). -/
structure Stats where
  start : DateTime
  stop : DateTime
  hours : ℚ
  minutes : ℚ
  total_yang : Nat
  yang_per_hour : Int
  yang_per_minute : Int
  items : List (String × Nat × Int)
deriving DecidableEq, Repr

/-- `LiveMonitorWorker.compute_stats_from_window` (source lines 128-164):
`None` on an empty window; otherwise totals, the 1-second-floored elapsed
time, rates, and the per-item list sorted by quantity descending
(`list.sort(key=..., reverse=True)` is a stable descending sort, embedded
as `mergeSort` with the reflexive total order `b.qty ≤ a.qty`).  The
`stop` field is the dict's `"end"` key. -/
def compute_stats_from_window (window : List LootEvent) : Option Stats :=
  match window with
  | [] => none
  | e0 :: rest =>
    let events_list := e0 :: rest
    let total_yang :=
      ((events_list.filter (fun ev => ev.is_yang)).map (fun ev => ev.quantity)).sum
    let iq := items_qty events_list
    let start := e0.ts
    let stop := ((e0 :: rest).getLast (List.cons_ne_nil e0 rest)).ts
    let elapsedRaw : Int := stop.toSec - start.toSec
    let elapsed : Int := if elapsedRaw < 1 then 1 else elapsedRaw
    let hours : ℚ := (elapsed : ℚ) / 3600
    let minutes : ℚ := (elapsed : ℚ) / 60
    let items_list := iq.map (fun p => (p.1, p.2, pyRound ((p.2 : ℚ) / hours)))
    let items_sorted := items_list.mergeSort (fun a b => decide (b.2.1 ≤ a.2.1))
    some
      { start := start
        stop := stop
        hours := hours
        minutes := minutes
        total_yang := total_yang
        yang_per_hour := pyRound ((total_yang : ℚ) / hours)
        yang_per_minute := pyRound ((total_yang : ℚ) / minutes)
        items := items_sorted }

section RatEval

attribute [local semireducible] Rat.mul Rat.inv Rat.add Rat.sub

def e2e1 : LootEvent := { ts := ⟨2025, 11, 24, 10, 0, 0⟩, quantity := 5, item := "Yang" }

def e2e2 : LootEvent := { ts := ⟨2025, 11, 24, 10, 0, 10⟩, quantity := 100, item := "Iron Ore" }

def e2e3 : LootEvent := { ts := ⟨2025, 11, 24, 10, 30, 0⟩, quantity := 5, item := "Yang" }

/-- C9: end-to-end scenario.  Appending `(10:00:00, 5, Yang)`,
`(10:00:10, 100, "Iron Ore")`, `(10:30:00, 5, Yang)` to an empty 60-minute
window and computing a snapshot yields `totalCurrency = 10`,
`windowStart = 10:00:00`, `windowEnd = 10:30:00`, an elapsed time of 1800
seconds (`hours * 3600 = 1800`), `currencyPerHour = 20`, and
`items = [("Iron Ore", 100, 200)]`. -/
theorem end_to_end_scenario :
    ∃ s, compute_stats_from_window (appendAll 60 [e2e1, e2e2, e2e3]) = some s ∧
      s.total_yang = 10 ∧
      s.start = ⟨2025, 11, 24, 10, 0, 0⟩ ∧
      s.stop = ⟨2025, 11, 24, 10, 30, 0⟩ ∧
      s.hours * 3600 = 1800 ∧
      s.yang_per_hour = 20 ∧
      s.items = [("Iron Ore", 100, 200)] := by
  have h1 : appendAll 60 [e2e1, e2e2, e2e3] = [e2e1, e2e2, e2e3] := by decide
  have hiq : items_qty [e2e1, e2e2, e2e3] = [("Iron Ore", 100)] := by decide
  refine ⟨{ start := ⟨2025, 11, 24, 10, 0, 0⟩, stop := ⟨2025, 11, 24, 10, 30, 0⟩,
            hours := 1 / 2, minutes := 30, total_yang := 10,
            yang_per_hour := 20, yang_per_minute := 0,
            items := [("Iron Ore", 100, 200)] }, ?_, by decide, by decide, by decide,
          by decide, by decide, by decide⟩
  rw [h1]
  simp only [compute_stats_from_window, hiq, Option.some.injEq]
  have helapsed : (if (([e2e1, e2e2, e2e3].getLast
        (List.cons_ne_nil e2e1 [e2e2, e2e3])).ts.toSec - e2e1.ts.toSec : Int) < 1
      then (1 : Int)
      else ([e2e1, e2e2, e2e3].getLast
        (List.cons_ne_nil e2e1 [e2e2, e2e3])).ts.toSec - e2e1.ts.toSec) = 1800 := by
    decide
  rw [helapsed]
  simp only [List.map_cons, List.map_nil, List.mergeSort_singleton]
  decide

end RatEval

theorem if_lt_one_eq_max (d : Int) : (if d < 1 then (1 : Int) else d) = max d 1 := by
  rcases le_or_lt 1 d with h | h
  · rw [if_neg (by omega), max_eq_left h]
  · rw [if_pos h, max_eq_right (by omega)]

/-- C4: rate floor.  On every non-empty window the snapshot exists, its
elapsed time is `max(windowEnd - windowStart, 1)` seconds (so at least one
second even when all events share a timestamp), both rate divisors are
strictly positive — no division by zero can occur and the rates are the
well-defined finite values `round(total / hours)` and
`round(total / minutes)` — and the degenerate interval is absorbed, never
signalled as an error. -/
theorem rate_floor (e0 : LootEvent) (rest : List LootEvent) :
    ∃ s, compute_stats_from_window (e0 :: rest) = some s ∧
      s.hours = ((max (((e0 :: rest).getLast (List.cons_ne_nil e0 rest)).ts.toSec -
          e0.ts.toSec) 1 : Int) : ℚ) / 3600 ∧
      s.minutes = ((max (((e0 :: rest).getLast (List.cons_ne_nil e0 rest)).ts.toSec -
          e0.ts.toSec) 1 : Int) : ℚ) / 60 ∧
      0 < s.hours ∧ 0 < s.minutes ∧
      s.yang_per_hour = pyRound ((s.total_yang : ℚ) / s.hours) ∧
      s.yang_per_minute = pyRound ((s.total_yang : ℚ) / s.minutes) := by
  have h1 : (1 : Int) ≤ max (((e0 :: rest).getLast (List.cons_ne_nil e0 rest)).ts.toSec -
      e0.ts.toSec) 1 := le_max_right _ _
  have h2 : (0 : ℚ) < ((max (((e0 :: rest).getLast (List.cons_ne_nil e0 rest)).ts.toSec -
      e0.ts.toSec) 1 : Int) : ℚ) := by
    exact_mod_cast lt_of_lt_of_le Int.zero_lt_one h1
  simp only [compute_stats_from_window]
  refine ⟨_, rfl, ?_, ?_, ?_, ?_, rfl, rfl⟩
  · rw [if_lt_one_eq_max]
  · rw [if_lt_one_eq_max]
  · dsimp only
    rw [if_lt_one_eq_max]
    exact div_pos h2 (by norm_num)
  · dsimp only
    rw [if_lt_one_eq_max]
    exact div_pos h2 (by norm_num)

/-- `LiveMonitorWorker`'s state, as far as the snapshot path touches it: the
configured window length and the deque (lines 113-120).  The remaining
attributes (path, callbacks, flags) are read only by `run` and never by
`compute_stats_from_window`. -/
structure LiveMonitorWorker where
  window_minutes : Int
  window : List LootEvent
deriving DecidableEq

/-- The `compute_stats_from_window` **method** as a state transformer:
the returned worker state is the state after the call.  The body (lines
128-164) only reads `self.window` (copying it with `list(self.window)`)
and mutates method-local structures, so the embedded method returns the
state unchanged. -/
def LiveMonitorWorker.compute_stats (w : LiveMonitorWorker) :
    LiveMonitorWorker × Option Stats :=
  (w, compute_stats_from_window w.window)

/-- C6: snapshot purity and idempotence.  Computing a snapshot leaves the
worker's state (window included) unchanged, and computing again from the
state left by the first call yields a snapshot equal in every field,
including the order of `items`. -/
theorem snapshot_pure_idempotent (w : LiveMonitorWorker) :
    w.compute_stats.1 = w ∧
    w.compute_stats.1.compute_stats.2 = w.compute_stats.2 :=
  ⟨rfl, rfl⟩

/-- The reporting fragment of one `run` iteration (source lines 189-194)
from the consumer's viewpoint: `displayed` is the last snapshot delivered
to `update_callback`; when `compute_stats_from_window` returns `None` the
callback is not invoked and the displayed snapshot stays. -/
def reportTick (window : List LootEvent) (displayed : Option Stats) : Option Stats :=
  match compute_stats_from_window window with
  | none => displayed
  | some s => some s

/-- C7: empty-window guard.  The snapshot computation returns `None`
exactly when the window is empty, and on an empty window a reporting tick
delivers nothing: the previously displayed snapshot is neither cleared nor
replaced. -/
theorem empty_window_guard (window : List LootEvent) (displayed : Option Stats) :
    (compute_stats_from_window window = none ↔ window = []) ∧
    reportTick [] displayed = displayed := by
  refine ⟨⟨fun h => ?_, fun h => by rw [h]; rfl⟩, rfl⟩
  cases window with
  | nil => rfl
  | cons e0 rest => simp [compute_stats_from_window] at h

/-- Witness for `empty_window_guard` at the empty window with a previously
displayed snapshot absent. -/
theorem empty_window_guard_witness :
    (compute_stats_from_window [] = none ↔ ([] : List LootEvent) = []) ∧
    reportTick [] none = none :=
  empty_window_guard [] none

/-- What one `f.readline()` in the Reading loop can produce: a line, no new
data (Python returns `""` at end of file), or a raised `OSError` (a
mid-stream I/O failure). -/
inductive ReadResult where
  | line (s : String)
  | noData
  | ioError
deriving DecidableEq

/-- One iteration of the Reading loop's input handling (source lines
180-187), as a transformer of the window state.  `.ok` is a normally
completed iteration; `.error ()` is an uncaught exception propagating out
of `run` (the loop body has no try/except: an `OSError` from `readline` —
and equally a `ValueError` from `parse_log_line` — terminates the thread,
skipping even the final `f.close()`). -/
def run_read_step (window_minutes : Int) (window : List LootEvent) :
    ReadResult → Except Unit (List LootEvent)
  | .noData => .ok window
  | .ioError => .error ()
  | .line s =>
    match parse_log_line s with
    | .error _ => .error ()
    | .ok none => .ok window
    | .ok (some ev) => .ok (add_event window_minutes window ev)

/-- C8 counterexample: a mid-stream read error is **not** treated as "no
line available".  On the same (empty) window, a no-data iteration
continues the session while an `ioError` iteration terminates it — the
claimed equal treatment fails at this concrete input. -/
theorem read_failure_counterexample :
    run_read_step 60 [] .ioError = .error () ∧
    run_read_step 60 [] .noData = .ok [] ∧
    run_read_step 60 [] .ioError ≠ run_read_step 60 [] .noData :=
  ⟨rfl, rfl, fun h => Except.noConfusion h⟩

/-- C8, amended: an iteration with no new data leaves the session running
with the window unchanged, but a raised mid-stream read error is not
caught anywhere in the Reading loop: it propagates and terminates the
session (silently — no error is delivered to the consumer, unlike the
open-time failure which is reported via the callback). -/
theorem read_step_amended (wm : Int) (window : List LootEvent) :
    run_read_step wm window .noData = .ok window ∧
    run_read_step wm window .ioError = .error () :=
  ⟨rfl, rfl⟩

/-!
## Item ordering (claim C5)

`list.sort(key=lambda x: x[1], reverse=True)` is a stable descending sort:
the embedding uses `mergeSort` with the reflexive total order
`le a b ↔ b.qty ≤ a.qty`, whose stability is core's
`pair_sublist_mergeSort`.
-/

/-- Index of the first occurrence of `a` (length of the list when
absent). -/
def firstPos {α : Type} [DecidableEq α] (a : α) : List α → Nat
  | [] => 0
  | b :: t => if b = a then 0 else firstPos a t + 1

/-- The order in which names first appear in a sequence (the key order of
a Python insertion-ordered dict built by repeated `+=`). -/
def firstSeenOrder (names : List String) : List String :=
  names.foldl (fun acc n => if n ∈ acc then acc else acc ++ [n]) []

theorem mem_pair_sublist {α : Type} {x y : α} {l : List α}
    (hx : x ∈ l) (hy : y ∈ l) (hne : x ≠ y) :
    List.Sublist [x, y] l ∨ List.Sublist [y, x] l := by
  induction l with
  | nil => cases hx
  | cons a t ih =>
    rcases List.mem_cons.mp hx with hxa | hxt
    · rcases List.mem_cons.mp hy with hya | hyt
      · exact absurd (hxa.trans hya.symm) hne
      · subst hxa
        exact Or.inl ((List.singleton_sublist.mpr hyt).cons₂ x)
    · rcases List.mem_cons.mp hy with hya | hyt
      · subst hya
        exact Or.inr ((List.singleton_sublist.mpr hxt).cons₂ y)
      · rcases ih hxt hyt with h | h
        · exact Or.inl (h.cons a)
        · exact Or.inr (h.cons a)

theorem firstPos_lt_of_pair_sublist {α : Type} [DecidableEq α] {x y : α} :
    ∀ {l : List α}, List.Sublist [x, y] l → l.Nodup → firstPos x l < firstPos y l := by
  intro l
  induction l with
  | nil => intro h; cases h
  | cons b t ih =>
    intro h hnd
    cases h with
    | cons _ h2 =>
      have hbt : b ∉ t := (List.pairwise_cons.mp hnd).1 |> fun hb => by
        intro hmem
        exact (hb b hmem) rfl
      have hx : x ∈ t := (List.Sublist.mem (by simp) h2)
      have hy : y ∈ t := (List.Sublist.mem (by simp) h2)
      have hbx : ¬(b = x) := fun hEq => hbt (hEq ▸ hx)
      have hby : ¬(b = y) := fun hEq => hbt (hEq ▸ hy)
      simp only [firstPos, if_neg hbx, if_neg hby]
      exact Nat.succ_lt_succ (ih h2 hnd.of_cons)
    | cons₂ _ h2 =>
      have hxt : x ∉ t := by
        intro hmem
        exact ((List.pairwise_cons.mp hnd).1 x hmem) rfl
      have hy : y ∈ t := List.singleton_sublist.mp h2
      have hxy : ¬(x = y) := fun hEq => hxt (hEq ▸ hy)
      simp [firstPos, hxy]

theorem firstPos_map_of_nodup {α β : Type} [DecidableEq α] [DecidableEq β]
    (f : α → β) : ∀ (l : List α) (a : α), (l.map f).Nodup → a ∈ l →
    firstPos (f a) (l.map f) = firstPos a l := by
  intro l
  induction l with
  | nil => intro a _ ha; cases ha
  | cons b t ih =>
    intro a hnd ha
    rcases List.mem_cons.mp ha with hab | hat
    · subst hab
      simp [firstPos]
    · have hfb : f b ∉ (t.map f) := by
        intro hmem
        exact ((List.pairwise_cons.mp hnd).1 (f b) hmem) rfl
      have hfa : f a ∈ t.map f := List.mem_map_of_mem f hat
      have h1 : ¬(f b = f a) := fun hEq => hfb (hEq ▸ hfa)
      have h2 : ¬(b = a) := fun hEq => h1 (by rw [hEq])
      simp only [List.map_cons, firstPos, if_neg h1, if_neg h2]
      rw [ih a (by simpa using hnd.of_cons) hat]

/-- First-match lookup in the accumulator (`items_qty[name]`). -/
def qtyOf : List (String × Nat) → String → Nat
  | [], _ => 0
  | (n, q) :: rest, m => if n = m then q else qtyOf rest m

theorem map_fst_bumpQty (acc : List (String × Nat)) (name : String) (q : Nat) :
    (bumpQty acc name q).map Prod.fst =
      if name ∈ acc.map Prod.fst then acc.map Prod.fst
      else acc.map Prod.fst ++ [name] := by
  induction acc with
  | nil => simp [bumpQty]
  | cons p rest ih =>
    by_cases h : p.1 = name
    · have : (p.1, p.2) = p := rfl
      rw [show bumpQty (p :: rest) name q = (p.1, p.2 + q) :: rest by
        rw [← this]; simp [bumpQty, h]]
      simp [h]
    · rw [show bumpQty (p :: rest) name q = p :: bumpQty rest name q by
        conv_lhs => rw [show p = (p.1, p.2) from rfl]
        simp [bumpQty, h]]
      have hne : ¬(name = p.1) := fun hEq => h hEq.symm
      simp only [List.map_cons, List.mem_cons, hne, false_or, ih]
      by_cases hmem : name ∈ rest.map Prod.fst <;> simp [hmem]

theorem qtyOf_bumpQty (acc : List (String × Nat)) (name m : String) (q : Nat) :
    qtyOf (bumpQty acc name q) m =
      if name = m then qtyOf acc m + q else qtyOf acc m := by
  induction acc with
  | nil =>
    by_cases h : name = m <;> simp [bumpQty, qtyOf, h]
  | cons p rest ih =>
    by_cases h : p.1 = name
    · rw [show bumpQty (p :: rest) name q = (p.1, p.2 + q) :: rest by
        conv_lhs => rw [show p = (p.1, p.2) from rfl]
        simp [bumpQty, h]]
      rcases eq_or_ne name m with rfl | hnm
      · rw [show p = (p.1, p.2) from rfl]
        simp [qtyOf, h]
      · have h2 : ¬(p.1 = m) := fun hEq => hnm (h.symm.trans hEq)
        rw [show p = (p.1, p.2) from rfl]
        simp [qtyOf, h2, hnm]
    · rw [show bumpQty (p :: rest) name q = p :: bumpQty rest name q by
        conv_lhs => rw [show p = (p.1, p.2) from rfl]
        simp [bumpQty, h]]
      rcases eq_or_ne p.1 m with hpm | hpm
      · have hnm : ¬(name = m) := fun hEq => h (hpm.trans hEq.symm)
        rw [show p = (p.1, p.2) from rfl]
        simp [qtyOf, hpm, hnm]
      · rw [show p = (p.1, p.2) from rfl]
        simp only [qtyOf, if_neg hpm]
        exact ih

theorem qtyOf_eq_of_mem (l : List (String × Nat)) (n : String) (q : Nat)
    (hnd : (l.map Prod.fst).Nodup) (hmem : (n, q) ∈ l) : qtyOf l n = q := by
  induction l with
  | nil => cases hmem
  | cons p rest ih =>
    simp only [List.map_cons] at hnd
    rcases List.mem_cons.mp hmem with hEq | hmem2
    · rw [← hEq]
      simp [qtyOf]
    · have hn : n ∈ rest.map Prod.fst := by
        simpa using List.mem_map_of_mem Prod.fst hmem2
      have hp : p.1 ∉ rest.map Prod.fst := by
        intro hmem3
        exact ((List.pairwise_cons.mp hnd).1 p.1 hmem3) rfl
      have hne : ¬(p.1 = n) := fun hEq => hp (hEq ▸ hn)
      rw [show p = (p.1, p.2) from rfl]
      simp only [qtyOf, if_neg hne]
      exact ih hnd.of_cons hmem2

theorem map_fst_foldl_step (evs : List LootEvent) :
    ∀ acc : List (String × Nat),
      ((evs.foldl (fun acc ev =>
          if ev.is_yang then acc else bumpQty acc ev.item ev.quantity) acc).map
        Prod.fst) =
      ((evs.filter (fun e => !e.is_yang)).map LootEvent.item).foldl
        (fun ns n => if n ∈ ns then ns else ns ++ [n]) (acc.map Prod.fst) := by
  induction evs with
  | nil => intro acc; rfl
  | cons ev evs ih =>
    intro acc
    by_cases hy : ev.is_yang
    · simp only [List.foldl_cons, List.filter_cons, hy, if_pos, Bool.not_true]
      simpa using ih acc
    · have hy' : ev.is_yang = false := by simpa using hy
      have hstep : (ev :: evs).foldl (fun acc ev =>
          if ev.is_yang then acc else bumpQty acc ev.item ev.quantity) acc =
          evs.foldl (fun acc ev =>
            if ev.is_yang then acc else bumpQty acc ev.item ev.quantity)
            (bumpQty acc ev.item ev.quantity) := by
        simp [hy']
      have hfil : (ev :: evs).filter (fun e => !e.is_yang) =
          ev :: evs.filter (fun e => !e.is_yang) := by
        simp [List.filter_cons, hy']
      rw [hstep, hfil, List.map_cons, List.foldl_cons,
        ih (bumpQty acc ev.item ev.quantity), map_fst_bumpQty]

theorem mem_foldl_firstSeen (names : List String) :
    ∀ (ns0 : List String) (n : String),
      (n ∈ names.foldl (fun ns m => if m ∈ ns then ns else ns ++ [m]) ns0 ↔
        n ∈ ns0 ∨ n ∈ names) := by
  induction names with
  | nil => intro ns0 n; simp
  | cons m names ih =>
    intro ns0 n
    by_cases hm : m ∈ ns0
    · simp only [List.foldl_cons, if_pos hm, ih ns0 n, List.mem_cons]
      constructor
      · rintro (h | h)
        · exact Or.inl h
        · exact Or.inr (Or.inr h)
      · rintro (h | h | h)
        · exact Or.inl h
        · exact Or.inl (h ▸ hm)
        · exact Or.inr h
    · simp only [List.foldl_cons, if_neg hm, ih (ns0 ++ [m]) n, List.mem_append,
        List.mem_singleton, List.mem_cons]
      tauto

theorem nodup_foldl_firstSeen (names : List String) :
    ∀ ns0 : List String, ns0.Nodup →
      (names.foldl (fun ns m => if m ∈ ns then ns else ns ++ [m]) ns0).Nodup := by
  induction names with
  | nil => intro ns0 h; exact h
  | cons m names ih =>
    intro ns0 h
    by_cases hm : m ∈ ns0
    · simpa [List.foldl_cons, if_pos hm] using ih ns0 h
    · simp only [List.foldl_cons, if_neg hm]
      exact ih (ns0 ++ [m]) (by simp [List.nodup_append, h, hm])

theorem qtyOf_foldl_step (evs : List LootEvent) :
    ∀ (acc : List (String × Nat)) (m : String),
      qtyOf (evs.foldl (fun acc ev =>
          if ev.is_yang then acc else bumpQty acc ev.item ev.quantity) acc) m =
      qtyOf acc m +
        ((evs.filter (fun e => !e.is_yang && e.item == m)).map
          LootEvent.quantity).sum := by
  induction evs with
  | nil => intro acc m; simp
  | cons ev evs ih =>
    intro acc m
    by_cases hy : ev.is_yang
    · simp only [List.foldl_cons, if_pos hy, List.filter_cons, hy, Bool.not_true,
        Bool.false_and]
      simpa using ih acc m
    · have hy' : ev.is_yang = false := by simpa using hy
      have hstep : (ev :: evs).foldl (fun acc ev =>
          if ev.is_yang then acc else bumpQty acc ev.item ev.quantity) acc =
          evs.foldl (fun acc ev =>
            if ev.is_yang then acc else bumpQty acc ev.item ev.quantity)
            (bumpQty acc ev.item ev.quantity) := by
        simp [hy']
      by_cases hm : ev.item = m
      · have hfil : (ev :: evs).filter (fun e => !e.is_yang && e.item == m) =
            ev :: evs.filter (fun e => !e.is_yang && e.item == m) := by
          simp [List.filter_cons, hy', hm]
        rw [hstep, hfil, List.map_cons, List.sum_cons,
          ih (bumpQty acc ev.item ev.quantity) m, qtyOf_bumpQty, if_pos hm]
        omega
      · have hfil : (ev :: evs).filter (fun e => !e.is_yang && e.item == m) =
            evs.filter (fun e => !e.is_yang && e.item == m) := by
          simp [List.filter_cons, hy', hm]
        rw [hstep, hfil, ih (bumpQty acc ev.item ev.quantity) m, qtyOf_bumpQty,
          if_neg hm]

theorem map_fst_items_qty (evs : List LootEvent) :
    (items_qty evs).map Prod.fst =
      firstSeenOrder ((evs.filter (fun e => !e.is_yang)).map LootEvent.item) := by
  simpa [items_qty, firstSeenOrder] using map_fst_foldl_step evs []

theorem nodup_map_fst_items_qty (evs : List LootEvent) :
    ((items_qty evs).map Prod.fst).Nodup := by
  rw [map_fst_items_qty, firstSeenOrder]
  exact nodup_foldl_firstSeen _ [] (by simp)

theorem mem_map_fst_items_qty (evs : List LootEvent) (n : String) :
    n ∈ (items_qty evs).map Prod.fst ↔
      n ∈ (evs.filter (fun e => !e.is_yang)).map LootEvent.item := by
  rw [map_fst_items_qty, firstSeenOrder, mem_foldl_firstSeen]
  simp

theorem entry_items_qty (evs : List LootEvent) {n : String} {q : Nat}
    (h : (n, q) ∈ items_qty evs) :
    q = ((evs.filter (fun e => !e.is_yang && e.item == n)).map
        LootEvent.quantity).sum := by
  have h1 := qtyOf_eq_of_mem _ n q (nodup_map_fst_items_qty evs) h
  have h2 : qtyOf (items_qty evs) n =
      ((evs.filter (fun e => !e.is_yang && e.item == n)).map
        LootEvent.quantity).sum := by
    simpa [items_qty, qtyOf] using qtyOf_foldl_step evs [] n
  rw [← h1, h2]

theorem qtyLe_trans (a b c : String × Nat × Int) :
    decide (b.2.1 ≤ a.2.1) → decide (c.2.1 ≤ b.2.1) → decide (c.2.1 ≤ a.2.1) := by
  simp only [decide_eq_true_eq]
  omega

theorem qtyLe_total (a b : String × Nat × Int) :
    decide (b.2.1 ≤ a.2.1) || decide (a.2.1 ≤ b.2.1) := by
  rcases Nat.le_total b.2.1 a.2.1 with h | h
  · simp [h]
  · simp [h]

/-- All item-list properties of claim C5, for the aggregation of an
arbitrary window followed by the stable descending sort, with an arbitrary
per-hour computation `g` attached to each aggregated quantity. -/
theorem items_sorted_props (w : List LootEvent)
    (f : String × Nat → String × Nat × Int)
    (hf1 : ∀ p, (f p).1 = p.1) (hf2 : ∀ p, (f p).2.1 = p.2) :
    (((((items_qty w).map f).mergeSort
        (fun a b => decide (b.2.1 ≤ a.2.1))).map Prod.fst).Nodup ∧
     (∀ n, n ∈ (((items_qty w).map f).mergeSort
          (fun a b => decide (b.2.1 ≤ a.2.1))).map Prod.fst ↔
        n ∈ (w.filter (fun e => !e.is_yang)).map LootEvent.item) ∧
     (∀ x ∈ ((items_qty w).map f).mergeSort
          (fun a b => decide (b.2.1 ≤ a.2.1)),
        x.2.1 = ((w.filter (fun e => !e.is_yang && e.item == x.1)).map
          LootEvent.quantity).sum) ∧
     (((items_qty w).map f).mergeSort
        (fun a b => decide (b.2.1 ≤ a.2.1))).Pairwise
          (fun a b => b.2.1 ≤ a.2.1) ∧
     (((items_qty w).map f).mergeSort
        (fun a b => decide (b.2.1 ≤ a.2.1))).Pairwise
          (fun a b => a.2.1 = b.2.1 →
            firstPos a.1 (firstSeenOrder ((w.filter
              (fun e => !e.is_yang)).map LootEvent.item)) <
            firstPos b.1 (firstSeenOrder ((w.filter
              (fun e => !e.is_yang)).map LootEvent.item)))) := by
  set le := fun (a b : String × Nat × Int) => decide (b.2.1 ≤ a.2.1) with hle
  set itemsList := (items_qty w).map f with hil
  set sorted := itemsList.mergeSort le with hs
  have hmapfst : itemsList.map Prod.fst = (items_qty w).map Prod.fst := by
    rw [hil, List.map_map]
    exact List.map_congr_left (fun p _ => hf1 p)
  have hnodupnames : (itemsList.map Prod.fst).Nodup := by
    rw [hmapfst]
    exact nodup_map_fst_items_qty w
  have hnodup : itemsList.Nodup := List.Nodup.of_map Prod.fst hnodupnames
  have hperm : List.Perm sorted itemsList := List.mergeSort_perm itemsList le
  have hsortednodup : sorted.Nodup := hperm.symm.nodup hnodup
  have hsortednames : (sorted.map Prod.fst).Nodup :=
    (hperm.map Prod.fst).symm.nodup hnodupnames
  refine ⟨hsortednames, ?_, ?_, ?_, ?_⟩
  · intro n
    rw [(hperm.map Prod.fst).mem_iff, hmapfst]
    exact mem_map_fst_items_qty w n
  · intro x hx
    have hx2 : x ∈ itemsList := hperm.mem_iff.mp hx
    rw [hil] at hx2
    rcases List.mem_map.mp hx2 with ⟨p, hp, hpx⟩
    have hpmem : (p.1, p.2) ∈ items_qty w := by
      rw [show (p.1, p.2) = p from rfl]
      exact hp
    have hsum := entry_items_qty w hpmem
    rw [← hpx, hf2 p, hf1 p]
    exact hsum
  · have := @List.sorted_mergeSort _ le qtyLe_trans qtyLe_total itemsList
    rw [← hs] at this
    exact this.imp (fun h => by simpa [hle] using h)
  · rw [List.pairwise_iff_forall_sublist]
    intro x y hsub htie
    have hxy_ne : x ≠ y := by
      intro hEq
      subst hEq
      have := hsub.nodup hsortednodup
      simp at this
    have hxmem : x ∈ sorted := List.Sublist.mem (by simp) hsub
    have hymem : y ∈ sorted := List.Sublist.mem (by simp) hsub
    have hxil : x ∈ itemsList := hperm.mem_iff.mp hxmem
    have hyil : y ∈ itemsList := hperm.mem_iff.mp hymem
    have hnames : itemsList.map Prod.fst =
        firstSeenOrder ((w.filter (fun e => !e.is_yang)).map LootEvent.item) := by
      rw [hmapfst]
      exact map_fst_items_qty w
    rcases mem_pair_sublist hxil hyil hxy_ne with horder | horder
    · have hlt := firstPos_lt_of_pair_sublist horder hnodup
      have hx1 := firstPos_map_of_nodup Prod.fst itemsList x hnodupnames hxil
      have hy1 := firstPos_map_of_nodup Prod.fst itemsList y hnodupnames hyil
      rw [← hnames, hx1, hy1]
      exact hlt
    · have hleyx : le y x = true := by
        simp only [hle, decide_eq_true_eq]
        omega
      have hstable := List.pair_sublist_mergeSort qtyLe_trans qtyLe_total hleyx horder
      rw [← hs] at hstable
      have h1 := firstPos_lt_of_pair_sublist hsub hsortednodup
      have h2 := firstPos_lt_of_pair_sublist hstable hsortednodup
      omega

theorem mergeSortThree {α : Type} (le : α → α → Bool) (a b c : α) :
    [a, b, c].mergeSort le =
      List.merge ([a, b].mergeSort le) ([c].mergeSort le) le := by
  rw [List.mergeSort.eq_3]
  simp [List.splitInTwo]

theorem mergeSortTwo {α : Type} (le : α → α → Bool) (a b : α) :
    [a, b].mergeSort le = List.merge [a] [b] le := by
  rw [List.mergeSort.eq_3]
  simp [List.splitInTwo]

/-- The tie-break example of claim C5: quantities A:30, B:50, C:50 with B
first seen before C, all at one timestamp. -/
def tieA : LootEvent := ⟨⟨2025, 1, 1, 0, 0, 0⟩, 30, "A"⟩

def tieB : LootEvent := ⟨⟨2025, 1, 1, 0, 0, 0⟩, 50, "B"⟩

def tieC : LootEvent := ⟨⟨2025, 1, 1, 0, 0, 0⟩, 50, "C"⟩

set_option maxHeartbeats 1000000 in
/-- C5: item ordering.
  For every non-empty window the snapshot's `items`
sequence has one entry per distinct non-currency item name (no duplicate
names; a name appears iff it occurs on a non-currency event of the
window), each entry's total is the sum of that name's quantities over the
window, the sequence is sorted by total quantity descending, and entries
with equal totals appear in the order in which their names were first seen
in the window (`firstSeenOrder`) — the stability of the sort. -/
theorem item_ordering_stable (e0 : LootEvent) (rest : List LootEvent) :
    (∃ s, compute_stats_from_window (e0 :: rest) = some s ∧
      ((s.items.map Prod.fst).Nodup ∧
       (∀ n, n ∈ s.items.map Prod.fst ↔
          n ∈ ((e0 :: rest).filter (fun e => !e.is_yang)).map LootEvent.item) ∧
       (∀ x ∈ s.items, x.2.1 = (((e0 :: rest).filter
            (fun e => !e.is_yang && e.item == x.1)).map LootEvent.quantity).sum) ∧
       s.items.Pairwise (fun a b => b.2.1 ≤ a.2.1) ∧
       s.items.Pairwise (fun a b => a.2.1 = b.2.1 →
          firstPos a.1 (firstSeenOrder (((e0 :: rest).filter
            (fun e => !e.is_yang)).map LootEvent.item)) <
          firstPos b.1 (firstSeenOrder (((e0 :: rest).filter
            (fun e => !e.is_yang)).map LootEvent.item))))) ∧
    (∃ s2, compute_stats_from_window [tieA, tieB, tieC] = some s2 ∧
      s2.items.map (fun x => (x.1, x.2.1)) =
        [("B", 50), ("C", 50), ("A", 30)]) := by
  constructor
  · simp only [compute_stats_from_window]
    refine Exists.intro _ (And.intro rfl ?_)
    dsimp only
    exact items_sorted_props (e0 :: rest) _ (fun p => rfl) (fun p => rfl)
  · have hiq : items_qty [tieA, tieB, tieC] = [("A", 30), ("B", 50), ("C", 50)] := by
      decide
    simp only [compute_stats_from_window]
    refine Exists.intro _ (And.intro rfl ?_)
    dsimp only
    rw [hiq]
    simp only [List.map_cons, List.map_nil]
    rw [mergeSortThree, mergeSortTwo, List.mergeSort_singleton]
    simp [List.merge]
